import Mathlib

/-!
Verification development for the 3D-chess (8×8×8) rules and search engine.

The definitions below are a shallow embedding of the TypeScript sources:
`types.ts`, `board.ts`, `movement.ts`, `game.ts`, `promotion.ts` and
`botWorker.ts`.  Pieces live on an 8×8×8 cube; a `Board` is the insertion
ordered piece collection of the `Board` class (its auxiliary position→piece
`Map` is kept consistent with the collection by every operation, so a lookup
in the map coincides with a first-match scan of the collection; the map is
embedded explicitly where a claim is about it).  JS numbers holding board
coordinates are embedded as `Int`; the 32-bit hash arithmetic of
`botWorker.ts` is embedded as `Nat` arithmetic modulo 2^32.
-/

namespace Chess3

/-- PieceType from types.ts. -/
inductive PieceType where
  | king
  | queen
  | rook
  | bishop
  | knight
  | pawn
deriving DecidableEq, Repr

/-- PieceColor from types.ts. -/
inductive PieceColor where
  | white
  | black
deriving DecidableEq, Repr

/-- Position3D from types.ts: integer coordinates, each in `[0,7]` when on
the board (bounds are checked dynamically, as in the source). -/
structure Pos3 where
  x : Int
  y : Int
  z : Int
deriving DecidableEq, Repr

/-- Piece from types.ts. -/
structure Piece where
  type : PieceType
  color : PieceColor
  position : Pos3
  hasMoved : Bool
deriving DecidableEq, Repr

/-- Componentwise addition of a direction offset, as done inline in
movement.ts (`x += dx; y += dy; z += dz`). -/
instance : Add Pos3 := ⟨fun a b => ⟨a.x + b.x, a.y + b.y, a.z + b.z⟩⟩

theorem Pos3.add_def (a b : Pos3) : a + b = ⟨a.x + b.x, a.y + b.y, a.z + b.z⟩ := rfl

/-- The Board class's piece collection (`pieces: Piece[]`).  The class also
maintains a `pieceMap` keyed by `posKey`; it is kept mutually consistent
with the collection, so `getPieceAt` is embedded as a first-match scan. -/
abbrev Board := List Piece

/-- Opponent of a color (the `color === White ? Black : White` pattern used
throughout movement.ts and botWorker.ts `getOpponent`). -/
def getOpponent (c : PieceColor) : PieceColor :=
  match c with
  | .white => .black
  | .black => .white

/-- Board.isInBounds from board.ts. -/
def isInBounds (p : Pos3) : Bool :=
  0 ≤ p.x && p.x < 8 && 0 ≤ p.y && p.y < 8 && 0 ≤ p.z && p.z < 8

/-- Board.getPieceAt from board.ts: the `pieceMap` lookup, embedded as the
first piece of the collection at that position (the map and the collection
are kept mutually consistent by every operation). -/
def getPieceAt (b : Board) (pos : Pos3) : Option Piece :=
  b.find? fun p => p.position = pos

/-- Board.getPiecesOfColor from board.ts. -/
def getPiecesOfColor (b : Board) (c : PieceColor) : List Piece :=
  b.filter fun p => p.color = c

/-- Board.findKing from board.ts. -/
def findKing (b : Board) (c : PieceColor) : Option Piece :=
  b.find? fun p => p.type = .king ∧ p.color = c

/-- ROOK_DIRS from movement.ts: 6 axis-aligned directions, 4 xz-plane
diagonals, 4 yz-plane diagonals. -/
def ROOK_DIRS : List Pos3 :=
  [⟨1,0,0⟩, ⟨-1,0,0⟩, ⟨0,1,0⟩, ⟨0,-1,0⟩, ⟨0,0,1⟩, ⟨0,0,-1⟩,
   ⟨1,0,1⟩, ⟨1,0,-1⟩, ⟨-1,0,1⟩, ⟨-1,0,-1⟩,
   ⟨0,1,1⟩, ⟨0,1,-1⟩, ⟨0,-1,1⟩, ⟨0,-1,-1⟩]

/-- BISHOP_DIRS from movement.ts: 4 xy-plane (two-axis) diagonals followed
by the 8 space (three-axis) diagonals. -/
def BISHOP_DIRS : List Pos3 :=
  [⟨1,1,0⟩, ⟨1,-1,0⟩, ⟨-1,1,0⟩, ⟨-1,-1,0⟩,
   ⟨1,1,1⟩, ⟨1,1,-1⟩, ⟨1,-1,1⟩, ⟨1,-1,-1⟩,
   ⟨-1,1,1⟩, ⟨-1,1,-1⟩, ⟨-1,-1,1⟩, ⟨-1,-1,-1⟩]

/-- QUEEN_DIRS from movement.ts. -/
def QUEEN_DIRS : List Pos3 := ROOK_DIRS ++ BISHOP_DIRS

/-- KING_DIRS from movement.ts. -/
def KING_DIRS : List Pos3 := QUEEN_DIRS

/-- generateKnightMoves from movement.ts: for a, b over [-2,-1,1,2] with
distinct absolute values, emit (a,b,0), (a,0,b), (0,a,b). -/
def generateKnightMoves : List Pos3 :=
  (([-2, -1, 1, 2] : List Int).map fun a =>
    (([-2, -1, 1, 2] : List Int).map fun b =>
      if a.natAbs = b.natAbs then []
      else [(⟨a, b, 0⟩ : Pos3), ⟨a, 0, b⟩, ⟨0, a, b⟩]).flatten).flatten

/-- KNIGHT_MOVES from movement.ts. -/
def KNIGHT_MOVES : List Pos3 := generateKnightMoves

/-- One direction of the while-loop in slideMoves (movement.ts): step in
direction `d` from `pos`, stopping at the board edge or the first occupant
(which is captured when it is an enemy).  On an 8×8×8 board a ray from an
in-bounds origin visits at most 7 further cells, so fuel 8 realises the
source's unbounded while-loop exactly. -/
def slideRay (b : Board) (c : PieceColor) (pos : Pos3) (d : Pos3) : Nat → List Pos3
  | 0 => []
  | fuel + 1 =>
    let next := pos + d
    if isInBounds next then
      match getPieceAt b next with
      | some occ => if occ.color ≠ c then [next] else []
      | none => next :: slideRay b c next d fuel
    else []

/-- slideMoves from movement.ts. -/
def slideMoves (b : Board) (pc : Piece) (dirs : List Pos3) : List Pos3 :=
  (dirs.map fun d => slideRay b pc.color pc.position d 8).flatten

/-- stepMoves from movement.ts. -/
def stepMoves (b : Board) (pc : Piece) (dirs : List Pos3) : List Pos3 :=
  dirs.filterMap fun d =>
    let pos := pc.position + d
    if isInBounds pos then
      match getPieceAt b pos with
      | some occ => if occ.color = pc.color then none else some pos
      | none => some pos
    else none

/-- The pawn's forward direction (`fwdDir` in pawnMoves, movement.ts). -/
def fwdDir (c : PieceColor) : Int :=
  match c with
  | .white => 1
  | .black => -1

/-- The five quiet move directions of pawnMoves (movement.ts): forward,
layer up, layer down, forward staircase up, forward staircase down. -/
def pawnMoveDirs (f : Int) : List Pos3 :=
  [⟨0, f, 0⟩, ⟨0, 0, 1⟩, ⟨0, 0, -1⟩, ⟨0, f, 1⟩, ⟨0, f, -1⟩]

/-- The quiet moves pawnMoves generates for one direction: the one-step
destination when it is in bounds and empty, followed by the two-step
destination when additionally the pawn is unmoved and the two-step cell is
in bounds and empty (movement.ts, pawnMoves main loop). -/
def pawnQuiet (b : Board) (pc : Piece) (d : Pos3) : List Pos3 :=
  let s1 := pc.position + d
  if isInBounds s1 && (getPieceAt b s1).isNone then
    s1 ::
      (if !pc.hasMoved then
        let s2 := pc.position + d + d
        if isInBounds s2 && (getPieceAt b s2).isNone then [s2] else []
      else [])
  else []

/-- The capture moves of pawnMoves (movement.ts): forward diagonals over
dz ∈ [-1,0,1], dx ∈ [-1,1], kept when in bounds and holding an enemy. -/
def pawnCaptures (b : Board) (pc : Piece) : List Pos3 :=
  (([-1, 0, 1] : List Int).map fun dz =>
    (([-1, 1] : List Int).map fun dx =>
      let cap : Pos3 :=
        ⟨pc.position.x + dx, pc.position.y + fwdDir pc.color, pc.position.z + dz⟩
      if isInBounds cap then
        match getPieceAt b cap with
        | some occ => if occ.color ≠ pc.color then [cap] else []
        | none => []
      else []).flatten).flatten

/-- pawnMoves from movement.ts: quiet moves for each of the five directions,
then the capture moves. -/
def pawnMoves (b : Board) (pc : Piece) : List Pos3 :=
  ((pawnMoveDirs (fwdDir pc.color)).map fun d => pawnQuiet b pc d).flatten
    ++ pawnCaptures b pc

/-- getValidMoves from movement.ts (pseudo-legal destination enumeration). -/
def getValidMoves (b : Board) (pc : Piece) : List Pos3 :=
  match pc.type with
  | .rook => slideMoves b pc ROOK_DIRS
  | .bishop => slideMoves b pc BISHOP_DIRS
  | .queen => slideMoves b pc QUEEN_DIRS
  | .king => stepMoves b pc KING_DIRS
  | .knight => stepMoves b pc KNIGHT_MOVES
  | .pawn => pawnMoves b pc

/-- pawnAttackSquares from movement.ts (the board argument is only used for
bounds checking there, which is static). -/
def pawnAttackSquares (_b : Board) (pc : Piece) : List Pos3 :=
  (([-1, 0, 1] : List Int).map fun dz =>
    (([-1, 1] : List Int).map fun dx =>
      let pos : Pos3 :=
        ⟨pc.position.x + dx, pc.position.y + fwdDir pc.color, pc.position.z + dz⟩
      if isInBounds pos then [pos] else []).flatten).flatten

/-- getRawMoves from movement.ts (raw moves without self-check filtering). -/
def getRawMoves (b : Board) (pc : Piece) : List Pos3 :=
  match pc.type with
  | .rook => slideMoves b pc ROOK_DIRS
  | .bishop => slideMoves b pc BISHOP_DIRS
  | .queen => slideMoves b pc QUEEN_DIRS
  | .king => stepMoves b pc KING_DIRS
  | .knight => stepMoves b pc KNIGHT_MOVES
  | .pawn => pawnAttackSquares b pc

/-- isKingInCheck from movement.ts: a color is in check when some enemy
piece's raw move set contains the king's square; `false` when the king is
absent. -/
def isKingInCheck (b : Board) (c : PieceColor) : Bool :=
  match findKing b c with
  | none => false
  | some king =>
    (getPiecesOfColor b (getOpponent c)).any fun p =>
      (getRawMoves b p).any fun m => m = king.position

/-- AppliedMove, the undo record of the reversible mutation scheme
(spec §3): the move's endpoints, the captured piece together with its
original collection index, and the mover's previous hasMoved flag and
previous type. -/
structure AppliedMove where
  fromPos : Pos3
  toPos : Pos3
  captured : Option (Piece × Nat)
  prevHasMoved : Bool
  prevType : PieceType
deriving DecidableEq, Repr

/-- Removal of the first piece found at a position, returning the removed
piece together with its original collection index (the Board class's
`getPieceAt` + `removePiece` splice, which removes at `indexOf`). -/
def removeAtPos : Board → Pos3 → Board × Option (Piece × Nat)
  | [], _ => ([], none)
  | p :: rest, toPos =>
    if p.position = toPos then (rest, some (p, 0))
    else
      let r := removeAtPos rest toPos
      (p :: r.1, r.2.map fun ci => (ci.1, ci.2 + 1))

/-- Insertion at a collection index with JS `splice(i, 0, x)` semantics
(appending when the index is at or beyond the end). -/
def insertAt : Board → Nat → Piece → Board
  | l, 0, cp => cp :: l
  | [], _ + 1, cp => [cp]
  | p :: rest, i + 1, cp => p :: insertAt rest i cp

/-- Relocation of the piece at `fromPos` onto `toPos`, marking it moved (the
in-place mutation of the moving piece in Board.movePiece / applyMove). -/
def moveBoard (b : Board) (fromPos toPos : Pos3) : Board :=
  b.map fun p =>
    if p.position = fromPos then { p with position := toPos, hasMoved := true } else p

/-- Modelled from the spec: `Board.applyMove(piece, to) → AppliedMove` is
called throughout movement.ts and botWorker.ts but its definition is not
among the provided sources.  Per spec §4.1 it removes any occupant at the
destination (capturing it), relocates the moving piece and marks it moved,
and records the minimal undo diff of spec §3: endpoints, captured piece
with its original collection index, previous hasMoved and previous type. -/
def applyMove (b : Board) (pc : Piece) (toPos : Pos3) : Board × AppliedMove :=
  let rem := removeAtPos b toPos
  (moveBoard rem.1 pc.position toPos,
   { fromPos := pc.position, toPos := toPos, captured := rem.2,
     prevHasMoved := pc.hasMoved, prevType := pc.type })

/-- Modelled from the spec: `Board.unapplyMove(AppliedMove)` is called
throughout movement.ts and botWorker.ts but its definition is not among the
provided sources.  Per spec §4.1 it restores the moving piece's exact prior
state (position, hasMoved, and type — rolling back an in-simulation
promotion) and reinserts a captured piece at its original collection
index. -/
def unapplyMove (b : Board) (am : AppliedMove) : Board :=
  let b1 := b.map fun p =>
    if p.position = am.toPos then
      { p with position := am.fromPos, hasMoved := am.prevHasMoved, type := am.prevType }
    else p
  match am.captured with
  | some (cp, i) => insertAt b1 i cp
  | none => b1

/-- isPromotionSquare from promotion.ts. -/
def isPromotionSquare (p : Piece) : Bool :=
  p.type = .pawn && p.position.y = (if p.color = .white then 7 else 0)

/-- autoPromoteToQueen from promotion.ts, as the piece transformation it
performs (the JS function mutates the piece and reports whether it fired). -/
def autoPromoteToQueen (p : Piece) : Piece :=
  if isPromotionSquare p then { p with type := .queen } else p

/-- The board-level effect of calling `autoPromoteToQueen(move.piece)` right
after `applyMove(move.piece, to)` during search (botWorker.ts): the piece
now sitting on the destination is auto-promoted. -/
def promoteAt (b : Board) (toPos : Pos3) : Board :=
  b.map fun p => if p.position = toPos then autoPromoteToQueen p else p

/-- getLegalMoves from movement.ts: each pseudo-legal destination is
simulated with `applyMove`, tested with `isKingInCheck`, and reverted with
`unapplyMove`; a destination is kept when the mover's own king is not in
check in the simulated position.  Because `unapplyMove` restores the
pre-move board exactly (proved below), each iteration of the source's loop
tests `isKingInCheck` on precisely `(applyMove b pc toPos).1`. -/
def getLegalMoves (b : Board) (pc : Piece) : List Pos3 :=
  (getValidMoves b pc).filter fun toPos =>
    !(isKingInCheck (applyMove b pc toPos).1 pc.color)

/-- isCheckmate from movement.ts. -/
def isCheckmate (b : Board) (c : PieceColor) : Bool :=
  isKingInCheck b c &&
    (getPiecesOfColor b c).all fun p => getLegalMoves b p = []

/-- isStalemate from movement.ts. -/
def isStalemate (b : Board) (c : PieceColor) : Bool :=
  !isKingInCheck b c &&
    (getPiecesOfColor b c).all fun p => getLegalMoves b p = []

/-- Board.movePiece from board.ts (the non-reversible permanent move):
removes any occupant at the destination and returns it, relocates the
moving piece and marks it moved. -/
def movePiece (b : Board) (pc : Piece) (toPos : Pos3) : Board × Option Piece :=
  let rem := removeAtPos b toPos
  (moveBoard rem.1 pc.position toPos, rem.2.map fun ci => ci.1)

/-- Board.serialize from board.ts: a field-by-field copy of each piece in
collection order. -/
def serialize (b : Board) : List Piece :=
  b.map fun p =>
    { type := p.type, color := p.color, position := p.position, hasMoved := p.hasMoved }

/-- The rebuilt Board of Board.deserialize: the piece collection plus the
position→piece index.  The JS index is a `Map` keyed by the `posKey` string
`x,y,z`, which determines and is determined by the coordinate triple, so
keys are embedded as the triple itself. -/
structure BoardWithMap where
  pieces : List Piece
  pieceMap : List (Pos3 × Piece)
deriving DecidableEq, Repr

/-- JS `Map.set` on the association list: replace in place when the key is
present, append otherwise. -/
def mapSet : List (Pos3 × Piece) → Pos3 → Piece → List (Pos3 × Piece)
  | [], k, v => [(k, v)]
  | (k', v') :: rest, k, v =>
    if k' = k then (k, v) :: rest else (k', v') :: mapSet rest k v

/-- JS `Map.get` on the association list. -/
def mapGet : List (Pos3 × Piece) → Pos3 → Option Piece
  | [], _ => none
  | (k', v') :: rest, k => if k' = k then some v' else mapGet rest k

/-- One iteration of the Board.deserialize loop (board.ts): push a copy of
the serialized piece and register it in the index. -/
def deserStep (acc : BoardWithMap) (p : Piece) : BoardWithMap :=
  let piece : Piece :=
    { type := p.type, color := p.color, position := p.position, hasMoved := p.hasMoved }
  { pieces := acc.pieces ++ [piece],
    pieceMap := mapSet acc.pieceMap piece.position piece }

/-- Board.deserialize from board.ts: rebuild the collection and the index
by pushing a copy of each serialized piece and registering it in the map. -/
def deserialize (data : List Piece) : BoardWithMap :=
  data.foldl deserStep { pieces := [], pieceMap := [] }

/-- Round-trip fixture board for the serialization claim. -/
def deserBoard : Board :=
  [⟨.king, .white, ⟨0, 0, 0⟩, false⟩, ⟨.queen, .black, ⟨3, 4, 5⟩, true⟩]

/-- String form of a PieceType (the enum values of types.ts). -/
def pieceTypeStr (t : PieceType) : String :=
  match t with
  | .king => "king"
  | .queen => "queen"
  | .rook => "rook"
  | .bishop => "bishop"
  | .knight => "knight"
  | .pawn => "pawn"

/-- String form of a PieceColor (the enum values of types.ts). -/
def pieceColorStr (c : PieceColor) : String :=
  match c with
  | .white => "white"
  | .black => "black"

/-- One entry of the signature of boardSignature (botWorker.ts):
`type:color:hasMoved:xyz`. -/
def sigPart (p : Piece) : String :=
  let t := pieceTypeStr p.type
  let c := pieceColorStr p.color
  let hm := if p.hasMoved then (1 : Nat) else 0
  let xs := toString p.position.x
  let ys := toString p.position.y
  let zs := toString p.position.z
  s!"{t}:{c}:{hm}:{xs}{ys}{zs}"

/-- boardSignature from botWorker.ts: the per-piece entries sorted (JS
`Array.sort()` on strings is lexicographic, as is `List.mergeSort` under
`String.le`), joined with `|` and prefixed with the piece count. -/
def boardSignature (b : Board) : String :=
  let parts := (b.map sigPart).mergeSort
  let n := b.length
  let joined := String.intercalate "|" parts
  s!"{n}|{joined}"

/-- The 2^32 modulus of JS 32-bit integer arithmetic. -/
def U32 : Nat := 4294967296

/-- JS `Math.imul`, seen modulo 2^32 (signed and unsigned representations
agree modulo 2^32; the final `>>> 0` in hashBoard selects the unsigned
representative computed here). -/
def imul32 (a b : Nat) : Nat := (a * b) % U32

/-- pieceTypeIndex from botWorker.ts. -/
def pieceTypeIndex (t : PieceType) : Nat :=
  match t with
  | .pawn => 1
  | .knight => 2
  | .bishop => 3
  | .rook => 4
  | .queen => 5
  | .king => 6

/-- The per-piece code of hashBoard (botWorker.ts):
`t | (c << 3) | (hm << 5) | (sq << 6)` with
`sq = (x & 7) | ((y & 7) << 3) | ((z & 7) << 6)`.  JS `& 7` takes the low
three bits of the two's-complement representation, i.e. the value modulo
8. -/
def hashPieceCode (p : Piece) : Nat :=
  let t := pieceTypeIndex p.type
  let c : Nat := if p.color = .white then 1 else 2
  let hm : Nat := if p.hasMoved then 1 else 0
  let sq := (p.position.x % 8).toNat |||
    ((p.position.y % 8).toNat <<< 3) ||| ((p.position.z % 8).toNat <<< 6)
  t ||| (c <<< 3) ||| (hm <<< 5) ||| (sq <<< 6)

/-- One piece's mixing step of hashBoard (botWorker.ts):
`h1 = imul(h1 ^ code, 16777619)` and
`h2 = imul((h2 + code) ^ (code << 7), 2246822519)`, modulo 2^32. -/
def hashStep (h : Nat × Nat) (p : Piece) : Nat × Nat :=
  let code := hashPieceCode p
  (imul32 (h.1 ^^^ code) 16777619,
   imul32 (((h.2 + code) % U32) ^^^ ((code <<< 7) % U32)) 2246822519)

/-- hashBoard from botWorker.ts: fold the piece collection in its internal
order through the mixing step, xor in the piece count and side to move, and
render the `h1:h2:count` key. -/
def hashBoard (b : Board) (toMove : PieceColor) : String :=
  let h := b.foldl hashStep (0x811c9dc5, 0x9e3779b9)
  let h1 := h.1 ^^^ ((b.length * 131) % U32)
  let salt : Nat := if toMove = .white then 17 else 29
  let h2 := h.2 ^^^ ((salt * 257) % U32)
  let n := b.length
  s!"{h1}:{h2}:{n}"

/-- The game-mode tag of types.ts / game.ts: local two-player, bot
opponent, or online with a designated local color. -/
inductive GameModeT where
  | localPlay
  | botPlay
  | onlinePlay (localColor : PieceColor)
deriving DecidableEq, Repr

/-- The Game fields of game.ts that the move/promotion state machine reads
and writes.  The awaiting pawn is identified by its (unique) position;
captured-piece lists, history snapshots, selection state and the emitted
events are presentation bookkeeping that the promotion logic does not read
and are omitted. -/
structure GameState where
  board : Board
  currentTurn : PieceColor
  awaitingPromotion : Option Pos3
  gameOver : Bool
  botThinking : Bool
  mode : GameModeT
deriving DecidableEq, Repr

/-- The in-place `piece.type = …` mutation of game.ts (bot auto-promotion
and completePromotion), at the board level. -/
def setTypeAt (b : Board) (pos : Pos3) (ty : PieceType) : Board :=
  b.map fun p => if p.position = pos then { p with type := ty } else p

/-- The promotion rank check of game.ts executeMove:
`color === White ? 7 : 0`. -/
def promoRow (c : PieceColor) : Int :=
  if c = .white then 7 else 0

/-- Game.isBotTurn from game.ts. -/
def isBotTurn (g : GameState) : Bool :=
  g.mode = .botPlay && g.currentTurn = .black

/-- Game.endTurn from game.ts: flip the turn; declare checkmate or
stalemate for the side now to move; hand control to the bot when it is the
bot's turn. -/
def endTurn (g : GameState) : GameState :=
  let t := getOpponent g.currentTurn
  let g1 := { g with currentTurn := t }
  let g2 :=
    if isCheckmate g1.board t then { g1 with gameOver := true }
    else if isStalemate g1.board t then { g1 with gameOver := true }
    else g1
  if !g2.gameOver && isBotTurn g2 then { g2 with botThinking := true } else g2

/-- Game.executeMove from game.ts: perform the permanent move; when a pawn
reaches its promotion rank, a bot-owned pawn is immediately set to Queen
and the turn ends, while a remote or local human pawn records the
awaiting-promotion state and returns without ending the turn. -/
def executeMove (g : GameState) (pc : Piece) (toPos : Pos3) : GameState :=
  let b1 := (movePiece g.board pc toPos).1
  let g1 := { g with board := b1 }
  if pc.type = .pawn && toPos.y = promoRow pc.color then
    let isBotPiece := g.mode = GameModeT.botPlay && pc.color = .black
    let isRemotePiece : Bool :=
      match g.mode with
      | .onlinePlay lc => pc.color != lc
      | _ => false
    if isBotPiece then
      endTurn { g1 with board := setTypeAt b1 toPos .queen }
    else if isRemotePiece then
      { g1 with awaitingPromotion := some toPos }
    else
      { g1 with awaitingPromotion := some toPos }
  else
    endTurn g1

/-- Game.completePromotion from game.ts: set the awaiting pawn to the
chosen type, clear the awaiting state, and end the suspended turn. -/
def completePromotion (g : GameState) (chosenType : PieceType) : GameState :=
  match g.awaitingPromotion with
  | none => g
  | some pos =>
    endTurn { g with board := setTypeAt g.board pos chosenType, awaitingPromotion := none }

/-- BoundFlag from botWorker.ts. -/
inductive BoundFlag where
  | exactB
  | alphaB
  | betaB
deriving DecidableEq, Repr

/-- TranspositionEntry from botWorker.ts.  Scores are JS numbers; the table
lifecycle that the claims concern never inspects them, so they are embedded
as integers. -/
structure TranspositionEntry where
  depth : Nat
  score : Int
  flag : BoundFlag
  bestMoveKey : Option String
deriving DecidableEq, Repr

/-- MAX_TT_ENTRIES from botWorker.ts. -/
def MAX_TT_ENTRIES : Nat := 180000

/-- The table prelude of iterativeSearch (botWorker.ts lines 1160-1164),
acting on the module-level tables that persist across worker messages: the
transposition table is kept across turns and emptied only when it exceeds
MAX_TT_ENTRIES, while the history and killer tables are cleared on every
invocation. -/
def searchTablesPrelude
    (tt : List (String × TranspositionEntry))
    (hist : List (String × Nat))
    (killers : List (Nat × (String × String))) :
    List (String × TranspositionEntry) × List (String × Nat)
      × List (Nat × (String × String)) :=
  let _ := hist
  let _ := killers
  ((if tt.length > MAX_TT_ENTRIES then [] else tt), [], [])

/-- A root move (`fromPos`, `to`) as returned by the worker search. -/
structure RootChoice where
  fromPos : Pos3
  toPos : Pos3
deriving DecidableEq, Repr

/-- The outcome of one searchAtDepth call (botWorker.ts), abstracted over
its wall-clock/node-budget behaviour: it returns a scored move list (never
empty — an empty result is itself raised as SearchAborted, line 1014),
raises SearchAborted, or raises the `Bot has no legal moves` error (line
982, exactly when the side to move has no legal moves). -/
inductive DepthOutcome where
  | completed (moves : List RootChoice)
  | aborted
  | noLegalMoves
deriving DecidableEq, Repr

/-- The failure modes a worker search invocation can surface: the
`Bot has no legal moves` error, or a SearchAborted escaping the
invocation. -/
inductive SearchFailure where
  | noLegalMovesError
  | abortEscaped
deriving DecidableEq, Repr

/-- The iterative-deepening loop of iterativeSearch (botWorker.ts lines
1184-1293), with each depth's search abstracted as `atDepth` and the
guaranteedDepthOne emergency search as `emergency`: a completed depth
replaces the best result; the `Bot has no legal moves` error is rethrown;
on SearchAborted the loop breaks keeping the best result, running the
emergency depth-1 search first when no depth ever completed.  (A soft
budget stop after a completed depth is the special case where every later
depth aborts.) -/
def deepeningGo (atDepth : Nat → DepthOutcome) (emergency : DepthOutcome) :
    List Nat → Option (List RootChoice) →
    Except SearchFailure (Option (List RootChoice))
  | [], best => .ok best
  | d :: rest, best =>
    match atDepth d with
    | .completed r => deepeningGo atDepth emergency rest (some r)
    | .noLegalMoves => .error .noLegalMovesError
    | .aborted =>
      match best with
      | some r => .ok (some r)
      | none =>
        match emergency with
        | .completed r => .ok (some r)
        | .aborted => .error .abortEscaped
        | .noLegalMoves => .error .noLegalMovesError

/-- The result phase of iterativeSearch (botWorker.ts lines 1184-1299):
run the deepening loop over depths 1..maxDepth, then raise
`Bot has no legal moves` when no (nonempty) best result exists (line
1295). -/
def iterativeSearchSkeleton (maxDepth : Nat) (atDepth : Nat → DepthOutcome)
    (emergency : DepthOutcome) : Except SearchFailure (List RootChoice) :=
  match deepeningGo atDepth emergency (List.range' 1 maxDepth) none with
  | .error e => .error e
  | .ok none => .error .noLegalMovesError
  | .ok (some r) => if r = [] then .error .noLegalMovesError else .ok r

/-- Test pieces used by the claim about the hash fingerprint. -/
def hashPieceA : Piece := ⟨.pawn, .white, ⟨0, 0, 0⟩, false⟩

/-- Second test piece used by the claim about the hash fingerprint. -/
def hashPieceB : Piece := ⟨.pawn, .white, ⟨1, 0, 0⟩, false⟩

/-- Transposition entry used by the table-lifecycle counterexample. -/
def c4SampleEntry : TranspositionEntry := ⟨3, 42, .exactB, none⟩

/-- Reversibility fixture: a white rook about to capture. -/
def revRook : Piece := ⟨.rook, .white, ⟨0, 0, 0⟩, false⟩

/-- Reversibility fixture: the black pawn that gets captured. -/
def revPawn : Piece := ⟨.pawn, .black, ⟨0, 3, 0⟩, true⟩

/-- Reversibility fixture: a bystander piece after the captured one, so the
capture exercises index-stable reinsertion. -/
def revKnight : Piece := ⟨.knight, .white, ⟨5, 5, 5⟩, false⟩

/-- Reversibility fixture board. -/
def revBoard : Board := [revRook, revPawn, revKnight]

/-- Reversibility fixture destination (the captured pawn's square). -/
def revTo : Pos3 := ⟨0, 3, 0⟩

/-- Legality fixture: a lone white king. -/
def legalKing : Piece := ⟨.king, .white, ⟨0, 0, 0⟩, false⟩

/-- Unmoved-pawn fixture for the double-step claim. -/
def pawnFix : Piece := ⟨.pawn, .white, ⟨4, 1, 3⟩, false⟩

/-- Bot-promotion fixture pawn: a black pawn one step from its far rank. -/
def botPromoPawn : Piece := ⟨.pawn, .black, ⟨0, 1, 0⟩, true⟩

/-- Bot-promotion fixture game state. -/
def botPromoState : GameState := ⟨[botPromoPawn], .black, none, false, false, .botPlay⟩

/-- Human-promotion fixture pawn: a white pawn one step from its far rank. -/
def humanPromoPawn : Piece := ⟨.pawn, .white, ⟨3, 6, 2⟩, true⟩

/-- Human-promotion fixture game state. -/
def humanPromoState : GameState := ⟨[humanPromoPawn], .white, none, false, false, .localPlay⟩

/-- Root move used by the search-fallback witness. -/
def c7Choice : RootChoice := ⟨⟨4, 5, 3⟩, ⟨4, 4, 3⟩⟩

/-! ## Theorems -/

/-- A map by a function that fixes every element of a list is the list. -/
theorem map_eq_self_of_eq {α : Type} {l : List α} {f : α → α}
    (h : ∀ a ∈ l, f a = a) : l.map f = l := by
  induction l with
  | nil => rfl
  | cons a t ih =>
    simp only [List.map_cons, h a (by simp)]
    rw [ih fun x hx => h x (by simp [hx])]

/-- Reduction of removeAtPos at a matching head. -/
theorem removeAtPos_cons_pos {q : Piece} {rest : List Piece} {toPos : Pos3}
    (hq : q.position = toPos) :
    removeAtPos (q :: rest) toPos = (rest, some (q, 0)) := by
  simp only [removeAtPos]
  rw [if_pos hq]

/-- Reduction of removeAtPos at a non-matching head. -/
theorem removeAtPos_cons_neg {q : Piece} {rest : List Piece} {toPos : Pos3}
    (hq : ¬ q.position = toPos) :
    removeAtPos (q :: rest) toPos
      = (q :: (removeAtPos rest toPos).1,
         (removeAtPos rest toPos).2.map fun ci => (ci.1, ci.2 + 1)) := by
  simp only [removeAtPos]
  rw [if_neg hq]

/-- Reduction of insertAt at index zero. -/
theorem insertAt_zero (l : List Piece) (cp : Piece) : insertAt l 0 cp = cp :: l := by
  simp [insertAt]

/-- Reduction of insertAt at a successor index on a cons. -/
theorem insertAt_succ_cons (p : Piece) (rest : List Piece) (i : Nat) (cp : Piece) :
    insertAt (p :: rest) (i + 1) cp = p :: insertAt rest i cp := by
  simp [insertAt]

/-- When removeAtPos finds nothing, the collection is unchanged and holds
no piece at the position. -/
theorem removeAtPos_none_eq {b : Board} {toPos : Pos3}
    (h : (removeAtPos b toPos).2 = none) :
    (removeAtPos b toPos).1 = b ∧ ∀ p ∈ b, p.position ≠ toPos := by
  induction b with
  | nil => simp [removeAtPos]
  | cons q rest ih =>
    by_cases hq : q.position = toPos
    · rw [removeAtPos_cons_pos hq] at h
      simp at h
    · rw [removeAtPos_cons_neg hq] at h ⊢
      simp only [Option.map_eq_none] at h
      obtain ⟨h1, h2⟩ := ih (by simpa using h)
      simp only [h1, List.mem_cons, true_and]
      exact fun p hp => hp.elim (fun he => he ▸ hq) (h2 p)

/-- When removeAtPos removes a piece, the piece sat at the queried
position, reinsertion at the recorded index restores the collection, and
the remaining pieces all come from the collection. -/
theorem removeAtPos_some_spec {b : Board} {toPos : Pos3} {cp : Piece} {i : Nat}
    (h : (removeAtPos b toPos).2 = some (cp, i)) :
    cp.position = toPos ∧ insertAt (removeAtPos b toPos).1 i cp = b
    ∧ ∀ p ∈ (removeAtPos b toPos).1, p ∈ b := by
  induction b generalizing i with
  | nil => simp [removeAtPos] at h
  | cons q rest ih =>
    by_cases hq : q.position = toPos
    · rw [removeAtPos_cons_pos hq] at h ⊢
      obtain ⟨rfl, rfl⟩ : q = cp ∧ (0 : Nat) = i := by
        simpa [eq_comm, Prod.ext_iff] using h
      exact ⟨hq, by simp [insertAt_zero], fun p hp => by simp [hp]⟩
    · rw [removeAtPos_cons_neg hq] at h ⊢
      dsimp only at h ⊢
      rcases ho : (removeAtPos rest toPos).2 with _ | ⟨cq, j⟩
      · simp [ho] at h
      · rw [ho] at h
        simp only [Option.map_some', Option.some.injEq, Prod.mk.injEq] at h
        obtain ⟨rfl, rfl⟩ := h
        obtain ⟨hpos, hins, hsub⟩ := ih ho
        refine ⟨hpos, ?_, ?_⟩
        · rw [insertAt_succ_cons, hins]
        · intro p hp
          rcases List.mem_cons.mp hp with he | ht
          · simp [he]
          · simp [hsub p ht]

/-- On a board whose piece positions are distinct, no piece left after a
removal occupies the removed position. -/
theorem removeAtPos_result_ne {b : Board} {toPos : Pos3}
    (hnd : (b.map Piece.position).Nodup) :
    ∀ p ∈ (removeAtPos b toPos).1, p.position ≠ toPos := by
  induction b with
  | nil => simp [removeAtPos]
  | cons q rest ih =>
    simp only [List.map_cons, List.nodup_cons] at hnd
    by_cases hq : q.position = toPos
    · rw [removeAtPos_cons_pos hq]
      intro p hp he
      have hmem : p.position ∈ List.map Piece.position rest :=
        List.mem_map_of_mem Piece.position hp
      rw [he, ← hq] at hmem
      exact hnd.1 hmem
    · rw [removeAtPos_cons_neg hq]
      intro p hp
      rcases List.mem_cons.mp hp with he | ht
      · exact he ▸ hq
      · exact ih hnd.2 p ht

/-- A piece not at the removed position survives removeAtPos. -/
theorem mem_removeAtPos {b : Board} {toPos : Pos3} {p : Piece}
    (hp : p ∈ b) (hne : p.position ≠ toPos) : p ∈ (removeAtPos b toPos).1 := by
  induction b with
  | nil => simp at hp
  | cons q rest ih =>
    by_cases hq : q.position = toPos
    · rw [removeAtPos_cons_pos hq]
      rcases List.mem_cons.mp hp with he | ht
      · exact absurd (he ▸ hq) hne
      · exact ht
    · rw [removeAtPos_cons_neg hq]
      rcases List.mem_cons.mp hp with he | ht
      · simp [he]
      · simp [ih ht]

/-- Every piece left by removeAtPos comes from the collection. -/
theorem removeAtPos_subset {b : Board} {toPos : Pos3} :
    ∀ p ∈ (removeAtPos b toPos).1, p ∈ b := by
  induction b with
  | nil => simp [removeAtPos]
  | cons q rest ih =>
    by_cases hq : q.position = toPos
    · rw [removeAtPos_cons_pos hq]
      exact fun p hp => by simp [hp]
    · rw [removeAtPos_cons_neg hq]
      intro p hp
      rcases List.mem_cons.mp hp with he | ht
      · simp [he]
      · simp [ih p ht]

/-- Restoring the mover: moving a piece, applying any position- and
color-preserving transformation to it, and then restoring position,
hasMoved and type yields back the original piece. -/
theorem restore_moved (g : Piece → Piece)
    (hgpos : ∀ p, (g p).position = p.position)
    (hgcol : ∀ p, (g p).color = p.color) (pc : Piece) (toPos : Pos3) :
    (fun q => if q.position = toPos then
        ({ q with position := pc.position, hasMoved := pc.hasMoved, type := pc.type } : Piece)
      else q)
      ((fun q => if q.position = toPos then g q else q)
        ({ pc with position := toPos, hasMoved := true })) = pc := by
  have h1 : ({ pc with position := toPos, hasMoved := true } : Piece).position = toPos := rfl
  simp only [h1, if_pos, hgpos]
  rw [hgcol ({ pc with position := toPos, hasMoved := true })]

/-- Core reversibility: apply a move, transform the moved piece by any
position- and color-preserving function (identity, or the in-simulation
auto-promotion), then unapply; the original collection returns, element for
element and index for index. -/
theorem unapply_after_apply (g : Piece → Piece)
    (hgpos : ∀ p, (g p).position = p.position)
    (hgcol : ∀ p, (g p).color = p.color)
    (b : Board) (pc : Piece) (toPos : Pos3)
    (hmem : pc ∈ b) (hnd : (b.map Piece.position).Nodup) :
    unapplyMove
      (((applyMove b pc toPos).1).map fun p => if p.position = toPos then g p else p)
      (applyMove b pc toPos).2 = b := by
  have hinj := List.inj_on_of_nodup_map hnd
  have hneto := @removeAtPos_result_ne _ toPos hnd
  have hfixed : ((((removeAtPos b toPos).1.map fun p =>
        if p.position = pc.position then { p with position := toPos, hasMoved := true } else p).map
          fun p => if p.position = toPos then g p else p).map
          fun p => if p.position = toPos then
            { p with position := pc.position, hasMoved := pc.hasMoved, type := pc.type }
          else p)
      = (removeAtPos b toPos).1 := by
    rw [List.map_map, List.map_map]
    apply map_eq_self_of_eq
    intro p hp
    simp only [Function.comp_apply]
    by_cases hp1 : p.position = pc.position
    · have hppc : p = pc := hinj (removeAtPos_subset p hp) hmem hp1
      subst hppc
      rw [if_pos hp1]
      exact restore_moved g hgpos hgcol p toPos
    · rw [if_neg hp1, if_neg (hneto p hp), if_neg (hneto p hp)]
  simp only [applyMove, unapplyMove, moveBoard]
  rcases hcap : (removeAtPos b toPos).2 with _ | ⟨cp, i⟩
  · dsimp only
    rw [hfixed]
    exact (removeAtPos_none_eq hcap).1
  · dsimp only
    rw [hfixed]
    exact (removeAtPos_some_spec hcap).2.1

/-- C1: on a well-formed board (the mover is one of the board's pieces and
piece positions are distinct), applying any pseudo-legal move with
applyMove and reversing it with unapplyMove restores the original piece
collection exactly — the mover's position, hasMoved flag and type, with a
captured piece back at its original collection index — both for a plain
simulated move and for one whose pawn was auto-promoted in simulation, and
therefore the serialized order-independent signature is byte-identical to
the pre-move signature. -/
theorem applyMove_unapplyMove_roundtrip (b : Board) (pc : Piece) (toPos : Pos3)
    (hmem : pc ∈ b) (hnd : (b.map Piece.position).Nodup)
    (hv : toPos ∈ getValidMoves b pc) :
    unapplyMove (applyMove b pc toPos).1 (applyMove b pc toPos).2 = b
    ∧ unapplyMove (promoteAt (applyMove b pc toPos).1 toPos) (applyMove b pc toPos).2 = b
    ∧ boardSignature (unapplyMove (applyMove b pc toPos).1 (applyMove b pc toPos).2)
        = boardSignature b := by
  have _ := hv
  have hpos : ∀ p, (autoPromoteToQueen p).position = p.position := by
    intro p
    unfold autoPromoteToQueen
    split <;> rfl
  have hcol : ∀ p, (autoPromoteToQueen p).color = p.color := by
    intro p
    unfold autoPromoteToQueen
    split <;> rfl
  have h2 : unapplyMove (promoteAt (applyMove b pc toPos).1 toPos)
      (applyMove b pc toPos).2 = b :=
    unapply_after_apply autoPromoteToQueen hpos hcol b pc toPos hmem hnd
  have h1 : unapplyMove (applyMove b pc toPos).1 (applyMove b pc toPos).2 = b := by
    have hid := unapply_after_apply (fun p => p) (fun _ => rfl) (fun _ => rfl)
      b pc toPos hmem hnd
    have hmapid : ((applyMove b pc toPos).1.map fun p =>
        if p.position = toPos then p else p) = (applyMove b pc toPos).1 :=
      map_eq_self_of_eq fun a _ => ite_self a
    rwa [hmapid] at hid
  exact ⟨h1, h2, by rw [h1]⟩

/-- Witness for C1 on a concrete rook capture with a piece stored after the
captured pawn, exercising index-stable reinsertion. -/
theorem applyMove_unapplyMove_roundtrip_witness :
    unapplyMove (applyMove revBoard revRook revTo).1 (applyMove revBoard revRook revTo).2
        = revBoard
    ∧ unapplyMove (promoteAt (applyMove revBoard revRook revTo).1 revTo)
        (applyMove revBoard revRook revTo).2 = revBoard
    ∧ boardSignature
          (unapplyMove (applyMove revBoard revRook revTo).1 (applyMove revBoard revRook revTo).2)
        = boardSignature revBoard :=
  applyMove_unapplyMove_roundtrip revBoard revRook revTo (by decide) (by decide) (by decide)

/-- C2: every destination kept by getLegalMoves leaves the mover's own king
out of check in the position reached by applying the move. -/
theorem getLegalMoves_no_self_check (b : Board) (pc : Piece) (toPos : Pos3)
    (h : toPos ∈ getLegalMoves b pc) :
    isKingInCheck (applyMove b pc toPos).1 pc.color = false := by
  unfold getLegalMoves at h
  obtain ⟨hv, hc⟩ := List.mem_filter.mp h
  simpa using hc

/-- Witness for C2 on a lone-king board. -/
theorem getLegalMoves_no_self_check_witness :
    (⟨1, 0, 0⟩ : Pos3) ∈ getLegalMoves [legalKing] legalKing
    ∧ isKingInCheck (applyMove [legalKing] legalKing ⟨1, 0, 0⟩).1 PieceColor.white = false :=
  ⟨by decide, getLegalMoves_no_self_check [legalKing] legalKing ⟨1, 0, 0⟩ (by decide)⟩

/-- C5 counterexample: the xy-plane diagonal (1,1,0) is one of the bishop's
sliding directions yet leaves the z coordinate unchanged, so the bishop's
direction set is not exactly the 8 three-axis space diagonals and not every
bishop direction changes all three coordinates. -/
theorem bishop_dirs_c5_counterexample :
    (⟨1, 1, 0⟩ : Pos3) ∈ BISHOP_DIRS ∧ (⟨1, 1, 0⟩ : Pos3).z = 0
    ∧ BISHOP_DIRS.length ≠ 8 := by
  refine ⟨by decide, rfl, by decide⟩

/-- C5 (amended): the bishop's sliding direction set consists of the 12
unit directions that change both x and y — the 4 two-axis xy-plane
diagonals together with the 8 three-axis space diagonals — and bishop move
generation is dispatched to the same sliding routine (same blocking rule)
as the rook's and queen's. -/
theorem bishop_dirs_amended :
    (∀ d ∈ BISHOP_DIRS,
      (d.x = 1 ∨ d.x = -1) ∧ (d.y = 1 ∨ d.y = -1) ∧ (d.z = 1 ∨ d.z = 0 ∨ d.z = -1))
    ∧ BISHOP_DIRS.length = 12
    ∧ (∀ (b : Board) (pc : Piece), pc.type = PieceType.bishop →
        getValidMoves b pc = slideMoves b pc BISHOP_DIRS)
    ∧ (∀ (b : Board) (pc : Piece), pc.type = PieceType.rook →
        getValidMoves b pc = slideMoves b pc ROOK_DIRS)
    ∧ (∀ (b : Board) (pc : Piece), pc.type = PieceType.queen →
        getValidMoves b pc = slideMoves b pc QUEEN_DIRS) := by
  refine ⟨by decide, by decide, ?_, ?_, ?_⟩ <;>
    exact fun b pc h => by simp [getValidMoves, h]

/-- Witness for the amended C5 theorem at a concrete bishop and board. -/
theorem bishop_dirs_amended_witness :
    getValidMoves [] ⟨PieceType.bishop, .white, ⟨4, 4, 4⟩, false⟩
      = slideMoves [] ⟨PieceType.bishop, .white, ⟨4, 4, 4⟩, false⟩ BISHOP_DIRS
    ∧ (⟨1, 1, 0⟩ : Pos3) ∈ BISHOP_DIRS :=
  ⟨bishop_dirs_amended.2.2.1 [] ⟨PieceType.bishop, .white, ⟨4, 4, 4⟩, false⟩ rfl,
   by decide⟩

/-- C3 counterexample: two boards holding the same two pieces in swapped
internal list order receive different hashBoard keys with the same side to
move, so the transposition fingerprint is not order-independent. -/
theorem hashBoard_c3_counterexample :
    ([hashPieceA, hashPieceB] : Board).Perm [hashPieceB, hashPieceA]
    ∧ hashBoard [hashPieceA, hashPieceB] .white
        ≠ hashBoard [hashPieceB, hashPieceA] .white := by
  constructor
  · exact List.Perm.swap _ _ _
  · decide

/-- C3 (amended): hashBoard folds the piece list in its internal order with
non-commutative mixing and is therefore order-dependent; the
order-independent position fingerprint of the worker is boardSignature,
which is invariant under any permutation of the piece collection. -/
theorem boardSignature_perm_invariant (b1 b2 : Board) (h : b1.Perm b2) :
    boardSignature b1 = boardSignature b2 := by
  unfold boardSignature
  have hlen : b1.length = b2.length := h.length_eq
  have hp : (b1.map sigPart).Perm (b2.map sigPart) := h.map _
  have hs : (b1.map sigPart).mergeSort = (b2.map sigPart).mergeSort :=
    List.eq_of_perm_of_sorted
      ((List.mergeSort_perm _ _).trans (hp.trans (List.mergeSort_perm _ _).symm))
      (List.sorted_mergeSort' _) (List.sorted_mergeSort' _)
  rw [hlen, hs]

/-- Witness for the amended C3 theorem on a concrete piece-swapped pair. -/
theorem boardSignature_perm_invariant_witness :
    boardSignature [hashPieceA, hashPieceB] = boardSignature [hashPieceB, hashPieceA] :=
  boardSignature_perm_invariant _ _ (List.Perm.swap _ _ _)

/-- C4 counterexample: a transposition-table entry present when a search
invocation starts survives the invocation's table prelude (the table is
below the MAX_TT_ENTRIES threshold), so transposition contents do carry
over from one "pick a move" invocation to the next. -/
theorem searchTables_c4_counterexample :
    (searchTablesPrelude [("k", c4SampleEntry)] [] []).1 = [("k", c4SampleEntry)]
    ∧ ([("k", c4SampleEntry)] : List (String × TranspositionEntry)) ≠ [] := by
  exact ⟨rfl, by simp⟩

/-- C4 (amended): each search invocation starts with fresh history and
killer tables, but the transposition table deliberately persists across
invocations and is emptied only when its size exceeds MAX_TT_ENTRIES. -/
theorem searchTablesPrelude_spec (tt : List (String × TranspositionEntry))
    (hist : List (String × Nat)) (killers : List (Nat × (String × String))) :
    (searchTablesPrelude tt hist killers).2.1 = []
    ∧ (searchTablesPrelude tt hist killers).2.2 = []
    ∧ (searchTablesPrelude tt hist killers).1
        = (if tt.length > MAX_TT_ENTRIES then [] else tt) :=
  ⟨rfl, rfl, rfl⟩

/-- JS Map.get after Map.set at the same key yields the set value. -/
theorem mapGet_mapSet_self (m : List (Pos3 × Piece)) (k : Pos3) (v : Piece) :
    mapGet (mapSet m k v) k = some v := by
  induction m with
  | nil => simp [mapSet, mapGet]
  | cons kv rest ih =>
    obtain ⟨k', v'⟩ := kv
    by_cases hk : k' = k
    · simp [mapSet, hk, mapGet]
    · simp [mapSet, hk, mapGet, ih]

/-- JS Map.get after Map.set at a different key is unchanged. -/
theorem mapGet_mapSet_other (m : List (Pos3 × Piece)) (k kq : Pos3) (v : Piece)
    (h : kq ≠ k) :
    mapGet (mapSet m k v) kq = mapGet m kq := by
  induction m with
  | nil =>
    simp only [mapSet, mapGet]
    rw [if_neg fun he => h he.symm]
  | cons kv rest ih =>
    obtain ⟨k', v'⟩ := kv
    simp only [mapSet, mapGet]
    by_cases hk : k' = k
    · rw [if_pos hk]
      simp only [mapGet]
      rw [if_neg (fun he => h he.symm), if_neg fun he => h (hk ▸ he).symm]
    · rw [if_neg hk]
      simp only [mapGet]
      by_cases hq : k' = kq
      · rw [if_pos hq, if_pos hq]
      · rw [if_neg hq, if_neg hq, ih]

/-- The deserialize loop appends the serialized pieces, in order, to the
accumulated collection. -/
theorem foldl_deserStep_pieces (data : List Piece) :
    ∀ acc : BoardWithMap, (data.foldl deserStep acc).pieces = acc.pieces ++ data := by
  induction data with
  | nil => intro acc; simp
  | cons p rest ih =>
    intro acc
    rw [List.foldl_cons, ih]
    show (acc.pieces ++ [p]) ++ rest = acc.pieces ++ p :: rest
    simp

/-- The index built by the deserialize loop answers exactly as a first-match
scan of the processed pieces, falling back to the accumulated index
(positions of the processed pieces being distinct). -/
theorem foldl_deserStep_get (data : List Piece) (pos : Pos3)
    (hnd : (data.map Piece.position).Nodup) :
    ∀ acc : BoardWithMap,
      mapGet ((data.foldl deserStep acc).pieceMap) pos
        = ((data.find? fun p => p.position = pos).or (mapGet acc.pieceMap pos)) := by
  induction data with
  | nil => intro acc; simp
  | cons p rest ih =>
    simp only [List.map_cons, List.nodup_cons] at hnd
    intro acc
    rw [List.foldl_cons, ih hnd.2]
    by_cases hp : p.position = pos
    · have hrest : rest.find? (fun q => decide (q.position = pos)) = none := by
        apply List.find?_eq_none.mpr
        intro q hq
        simp only [decide_eq_true_eq]
        intro he
        apply hnd.1
        rw [hp, ← he]
        exact List.mem_map_of_mem Piece.position hq
      have hhead : (p :: rest).find? (fun q => decide (q.position = pos)) = some p :=
        List.find?_cons_of_pos _ (by simpa using hp)
      rw [hrest, hhead]
      show (mapGet (mapSet acc.pieceMap p.position p) pos) = some p
      rw [← hp] at *
      exact mapGet_mapSet_self acc.pieceMap p.position p
    · have hhead : (p :: rest).find? (fun q => decide (q.position = pos))
          = rest.find? (fun q => decide (q.position = pos)) :=
        List.find?_cons_of_neg _ (by simpa using hp)
      rw [hhead]
      show ((rest.find? fun q => q.position = pos).or
          (mapGet (mapSet acc.pieceMap p.position p) pos)) = _
      rw [mapGet_mapSet_other acc.pieceMap p.position pos p fun he => hp he.symm]

/-- C6: deserializing a serialized board rebuilds the identical piece
collection (same pieces, in the same order, hence the same multiset of
types, colors, positions and hasMoved flags), and the rebuilt
position→piece index agrees with a first-match scan of the rebuilt
collection at every position. -/
theorem deserialize_serialize (b : Board) (hnd : (b.map Piece.position).Nodup) :
    (deserialize (serialize b)).pieces = b
    ∧ ∀ pos : Pos3,
        mapGet (deserialize (serialize b)).pieceMap pos
          = (deserialize (serialize b)).pieces.find? fun p => p.position = pos := by
  have hser : serialize b = b := map_eq_self_of_eq fun p _ => rfl
  have hpieces : (deserialize (serialize b)).pieces = b := by
    rw [hser]
    show (b.foldl deserStep { pieces := [], pieceMap := [] }).pieces = b
    rw [foldl_deserStep_pieces]
    rfl
  refine ⟨hpieces, fun pos => ?_⟩
  rw [hpieces]
  show mapGet ((serialize b).foldl deserStep { pieces := [], pieceMap := [] }).pieceMap pos = _
  rw [hser, foldl_deserStep_get b pos hnd]
  show ((b.find? fun p => p.position = pos).or none) = _
  cases b.find? fun p => p.position = pos <;> rfl

/-- Witness for C6 on a concrete two-piece board. -/
theorem deserialize_serialize_witness :
    (deserialize (serialize deserBoard)).pieces = deserBoard
    ∧ mapGet (deserialize (serialize deserBoard)).pieceMap ⟨3, 4, 5⟩
        = (deserialize (serialize deserBoard)).pieces.find? fun p => p.position = ⟨3, 4, 5⟩ :=
  ⟨(deserialize_serialize deserBoard (by decide)).1,
   (deserialize_serialize deserBoard (by decide)).2 ⟨3, 4, 5⟩⟩

/-- Componentwise reading of position addition. -/
theorem Pos3.add_x (a b : Pos3) : (a + b).x = a.x + b.x := rfl

/-- Componentwise reading of position addition. -/
theorem Pos3.add_y (a b : Pos3) : (a + b).y = a.y + b.y := rfl

/-- Componentwise reading of position addition. -/
theorem Pos3.add_z (a b : Pos3) : (a + b).z = a.z + b.z := rfl

/-- Positions are equal exactly when all three coordinates agree. -/
theorem pos3_eq_iff (a b : Pos3) : a = b ↔ a.x = b.x ∧ a.y = b.y ∧ a.z = b.z := by
  constructor
  · intro h
    subst h
    exact ⟨rfl, rfl, rfl⟩
  · intro h
    obtain ⟨h1, h2, h3⟩ := h
    cases a
    cases b
    simp_all

/-- The pawn forward direction is plus or minus one. -/
theorem fwdDir_cases (c : PieceColor) : fwdDir c = 1 ∨ fwdDir c = -1 := by
  cases c <;> simp [fwdDir]

/-- Component characterization of the five pawn quiet directions. -/
theorem pawnMoveDirs_comp {f : Int} {d : Pos3} (hd : d ∈ pawnMoveDirs f) :
    d.x = 0 ∧ ((d.y = f ∧ d.z = 0) ∨ (d.y = 0 ∧ d.z = 1) ∨ (d.y = 0 ∧ d.z = -1)
      ∨ (d.y = f ∧ d.z = 1) ∨ (d.y = f ∧ d.z = -1)) := by
  simp only [pawnMoveDirs, List.mem_cons, List.mem_singleton, List.not_mem_nil, or_false] at hd
  rcases hd with rfl | rfl | rfl | rfl | rfl <;> simp

/-- Elimination form for membership in one direction of the pawn quiet moves. -/
theorem mem_pawnQuiet {b : Board} {pc : Piece} {d m : Pos3} (h : m ∈ pawnQuiet b pc d) :
    (m = pc.position + d
      ∧ isInBounds (pc.position + d) = true ∧ getPieceAt b (pc.position + d) = none)
    ∨ (m = pc.position + d + d ∧ pc.hasMoved = false
      ∧ isInBounds (pc.position + d) = true ∧ getPieceAt b (pc.position + d) = none
      ∧ isInBounds (pc.position + d + d) = true
      ∧ getPieceAt b (pc.position + d + d) = none) := by
  unfold pawnQuiet at h
  by_cases h1 : (isInBounds (pc.position + d) && (getPieceAt b (pc.position + d)).isNone) = true
  case neg =>
    rw [if_neg h1] at h
    simp at h
  case pos =>
    rw [if_pos h1] at h
    obtain ⟨hb1, he1⟩ : isInBounds (pc.position + d) = true
        ∧ getPieceAt b (pc.position + d) = none := by
      simpa [Option.isNone_iff_eq_none] using h1
    rcases List.mem_cons.mp h with rfl | h2
    · exact Or.inl ⟨rfl, hb1, he1⟩
    · by_cases hmv : pc.hasMoved = true
      · rw [if_neg (by simp [hmv])] at h2
        simp at h2
      · rw [if_pos (by simp at hmv ⊢; simp [hmv])] at h2
        by_cases h3 : (isInBounds (pc.position + d + d)
            && (getPieceAt b (pc.position + d + d)).isNone) = true
        · rw [if_pos h3] at h2
          obtain ⟨hb3, he3⟩ : isInBounds (pc.position + d + d) = true
              ∧ getPieceAt b (pc.position + d + d) = none := by
            simpa [Option.isNone_iff_eq_none] using h3
          rcases List.mem_singleton.mp h2 with rfl
          exact Or.inr ⟨rfl, by simpa using hmv, hb1, he1, hb3, he3⟩
        · rw [if_neg h3] at h2
          simp at h2

/-- Introduction form for the pawn two-step destination. -/
theorem two_step_mem_pawnQuiet {b : Board} {pc : Piece} (d : Pos3)
    (hmv : pc.hasMoved = false)
    (h1 : isInBounds (pc.position + d) = true)
    (h2 : getPieceAt b (pc.position + d) = none)
    (h3 : isInBounds (pc.position + d + d) = true)
    (h4 : getPieceAt b (pc.position + d + d) = none) :
    pc.position + d + d ∈ pawnQuiet b pc d := by
  unfold pawnQuiet
  rw [if_pos (by simp [h1, h2]), if_pos (by simp [hmv]), if_pos (by simp [h3, h4])]
  simp

/-- Elimination form for membership in the pawn capture moves. -/
theorem mem_pawnCaptures {b : Board} {pc : Piece} {m : Pos3} (h : m ∈ pawnCaptures b pc) :
    ∃ dx dz : Int, (dx = -1 ∨ dx = 1) ∧ (dz = -1 ∨ dz = 0 ∨ dz = 1)
      ∧ m = ⟨pc.position.x + dx, pc.position.y + fwdDir pc.color, pc.position.z + dz⟩ := by
  unfold pawnCaptures at h
  rcases List.mem_flatten.mp h with ⟨ldz, hldz, hm1⟩
  rcases List.mem_map.mp hldz with ⟨dz, hdz, hez⟩
  subst hez
  rcases List.mem_flatten.mp hm1 with ⟨ldx, hldx, hm2⟩
  rcases List.mem_map.mp hldx with ⟨dx, hdx, hex⟩
  subst hex
  refine ⟨dx, dz, ?_, ?_, ?_⟩
  · simpa using hdx
  · simpa using hdz
  · dsimp only at hm2
    split at hm2
    · split at hm2
      · split at hm2
        · simpa using hm2
        · simp at hm2
      · simp at hm2
    · simp at hm2

/-- C10: an unmoved pawn is offered the two-step destination along each of
the five quiet directions (straight forward, the two layer laterals, the
two forward staircases) exactly when both the intermediate and the
destination cells are in bounds and empty, and a pawn that has moved is
never offered a two-step destination. -/
theorem pawnMoves_double_step (b : Board) (pc : Piece) (hty : pc.type = PieceType.pawn)
    (d : Pos3) (hd : d ∈ pawnMoveDirs (fwdDir pc.color)) :
    (pc.hasMoved = false →
      (pc.position + d + d ∈ pawnMoves b pc ↔
        (isInBounds (pc.position + d) = true ∧ getPieceAt b (pc.position + d) = none
         ∧ isInBounds (pc.position + d + d) = true
         ∧ getPieceAt b (pc.position + d + d) = none)))
    ∧ (pc.hasMoved = true → pc.position + d + d ∉ pawnMoves b pc) := by
  have _ := hty
  have hf := fwdDir_cases pc.color
  have hdc := pawnMoveDirs_comp hd
  have helim : pc.position + d + d ∈ pawnMoves b pc →
      pc.hasMoved = false
      ∧ isInBounds (pc.position + d) = true ∧ getPieceAt b (pc.position + d) = none
      ∧ isInBounds (pc.position + d + d) = true
      ∧ getPieceAt b (pc.position + d + d) = none := by
    intro hmem
    unfold pawnMoves at hmem
    rcases List.mem_append.mp hmem with hq | hcap
    · rcases List.mem_flatten.mp hq with ⟨lq, hlq, hmq⟩
      rcases List.mem_map.mp hlq with ⟨d', hd', he⟩
      subst he
      have hdc' := pawnMoveDirs_comp hd'
      rcases mem_pawnQuiet hmq with ⟨heq, _, _⟩ | ⟨heq, hmv, c1, c2, c3, c4⟩
      · exfalso
        rw [pos3_eq_iff] at heq
        simp only [Pos3.add_x, Pos3.add_y, Pos3.add_z] at heq
        omega
      · have hdd : d' = d := by
          rw [pos3_eq_iff] at heq
          simp only [Pos3.add_x, Pos3.add_y, Pos3.add_z] at heq
          rw [pos3_eq_iff]
          omega
        subst hdd
        exact ⟨hmv, c1, c2, c3, c4⟩
    · exfalso
      rcases mem_pawnCaptures hcap with ⟨dx, dz, hdx, hdz, heq⟩
      rw [pos3_eq_iff] at heq
      simp only [Pos3.add_x, Pos3.add_y, Pos3.add_z] at heq
      omega
  constructor
  · intro hmv
    constructor
    · intro hmem
      exact (helim hmem).2
    · intro hc
      obtain ⟨c1, c2, c3, c4⟩ := hc
      unfold pawnMoves
      apply List.mem_append.mpr
      left
      apply List.mem_flatten.mpr
      exact ⟨pawnQuiet b pc d, List.mem_map.mpr ⟨d, hd, rfl⟩,
        two_step_mem_pawnQuiet d hmv c1 c2 c3 c4⟩
  · intro hmv hmem
    have hcontra := (helim hmem).1
    rw [hmv] at hcontra
    simp at hcontra


/-- Witness for C10: the unmoved fixture pawn double-steps both straight
forward and laterally between layers. -/
theorem pawnMoves_double_step_witness :
    pawnFix.position + ⟨0, 1, 0⟩ + ⟨0, 1, 0⟩ ∈ pawnMoves [pawnFix] pawnFix
    ∧ pawnFix.position + ⟨0, 0, 1⟩ + ⟨0, 0, 1⟩ ∈ pawnMoves [pawnFix] pawnFix :=
  ⟨((pawnMoves_double_step [pawnFix] pawnFix rfl ⟨0, 1, 0⟩ (by decide)).1 rfl).mpr (by decide),
   ((pawnMoves_double_step [pawnFix] pawnFix rfl ⟨0, 0, 1⟩ (by decide)).1 rfl).mpr (by decide)⟩

/-- A first-match scan finds the unique element satisfying the predicate. -/
theorem find?_eq_some_of_unique {l : List Piece} {p : Piece → Bool} {a : Piece}
    (ha : a ∈ l) (hpa : p a = true) (huniq : ∀ x ∈ l, p x = true → x = a) :
    l.find? p = some a := by
  induction l with
  | nil => simp at ha
  | cons q rest ih =>
    by_cases hq : p q = true
    · have hqa : q = a := huniq q (by simp) hq
      subst hqa
      simp [List.find?_cons_of_pos _ hq]
    · rw [List.find?_cons_of_neg _ (by simpa using hq)]
      rcases List.mem_cons.mp ha with rfl | hrest
      · exact absurd hpa hq
      · exact ih hrest fun x hx hpx => huniq x (by simp [hx]) hpx

/-- After relocating the mover (and transforming it in place by any position-preserving function), the lookup at the destination returns exactly the transformed mover. -/
theorem getPieceAt_after_move (g : Piece → Piece) (hgpos : ∀ p, (g p).position = p.position)
    (b : Board) (pc : Piece) (toPos : Pos3)
    (hmem : pc ∈ b) (hnd : (b.map Piece.position).Nodup) (hne : toPos ≠ pc.position) :
    getPieceAt ((moveBoard (removeAtPos b toPos).1 pc.position toPos).map
        fun p => if p.position = toPos then g p else p) toPos
      = some (g { pc with position := toPos, hasMoved := true }) := by
  have hinj := List.inj_on_of_nodup_map hnd
  have hneto := @removeAtPos_result_ne _ toPos hnd
  have hpcmem : pc ∈ (removeAtPos b toPos).1 :=
    mem_removeAtPos hmem fun he => hne he.symm
  unfold getPieceAt moveBoard
  rw [List.map_map]
  apply find?_eq_some_of_unique
  · apply List.mem_map.mpr
    refine ⟨pc, hpcmem, ?_⟩
    simp
  · simp [hgpos]
  · intro x hx hpx
    rcases List.mem_map.mp hx with ⟨q, hq, hxe⟩
    subst hxe
    simp only [Function.comp_apply] at hpx ⊢
    by_cases hq1 : q.position = pc.position
    · have hqpc : q = pc := hinj (removeAtPos_subset q hq) hmem hq1
      subst hqpc
      simp
    · exfalso
      have hqq : q.position ≠ toPos := hneto q hq
      simp only [if_neg hq1] at hpx
      simp only [if_neg hqq] at hpx
      simp at hpx
      exact hqq hpx

/-- After relocating the mover, the lookup at the destination returns the moved piece. -/
theorem getPieceAt_moveBoard (b : Board) (pc : Piece) (toPos : Pos3)
    (hmem : pc ∈ b) (hnd : (b.map Piece.position).Nodup) (hne : toPos ≠ pc.position) :
    getPieceAt (moveBoard (removeAtPos b toPos).1 pc.position toPos) toPos
      = some { pc with position := toPos, hasMoved := true } := by
  have h := getPieceAt_after_move (fun p => p) (fun _ => rfl) b pc toPos hmem hnd hne
  rwa [map_eq_self_of_eq fun a _ => ite_self a] at h

/-- endTurn leaves the board untouched. -/
theorem endTurn_board (g : GameState) : (endTurn g).board = g.board := by
  unfold endTurn
  dsimp only
  repeat' split
  all_goals rfl

/-- endTurn passes the turn to the opponent. -/
theorem endTurn_currentTurn (g : GameState) :
    (endTurn g).currentTurn = getOpponent g.currentTurn := by
  unfold endTurn
  dsimp only
  repeat' split
  all_goals rfl

/-- endTurn leaves the awaiting-promotion state untouched. -/
theorem endTurn_awaiting (g : GameState) :
    (endTurn g).awaitingPromotion = g.awaitingPromotion := by
  unfold endTurn
  dsimp only
  repeat' split
  all_goals rfl

/-- C8: when a pawn reaches its far rank (y = 7 for White, y = 0 for
Black), a bot-owned pawn is immediately promoted to a Queen and the turn
ends; a human-owned pawn instead puts the game into the awaiting-promotion
state — still a pawn, turn suspended — until completePromotion installs the
chosen type and ends the turn; and a pawn moved during search simulation is
promoted to a Queen by autoPromoteToQueen. -/
theorem promotion_behaviour (g : GameState) (pc : Piece) (toPos : Pos3)
    (hmem : pc ∈ g.board) (hnd : (g.board.map Piece.position).Nodup)
    (hty : pc.type = PieceType.pawn) (hrank : toPos.y = promoRow pc.color)
    (hne : toPos ≠ pc.position) (haw : g.awaitingPromotion = none) :
    (g.mode = GameModeT.botPlay → pc.color = PieceColor.black →
      (executeMove g pc toPos).awaitingPromotion = none
      ∧ getPieceAt (executeMove g pc toPos).board toPos
          = some ⟨PieceType.queen, pc.color, toPos, true⟩
      ∧ (executeMove g pc toPos).currentTurn = getOpponent g.currentTurn)
    ∧ (g.mode = GameModeT.localPlay →
      ((executeMove g pc toPos).awaitingPromotion = some toPos
      ∧ getPieceAt (executeMove g pc toPos).board toPos
          = some ⟨PieceType.pawn, pc.color, toPos, true⟩
      ∧ (executeMove g pc toPos).currentTurn = g.currentTurn
      ∧ ∀ ty : PieceType,
          (completePromotion (executeMove g pc toPos) ty).awaitingPromotion = none
          ∧ getPieceAt (completePromotion (executeMove g pc toPos) ty).board toPos
              = some ⟨ty, pc.color, toPos, true⟩
          ∧ (completePromotion (executeMove g pc toPos) ty).currentTurn
              = getOpponent g.currentTurn))
    ∧ (autoPromoteToQueen { pc with position := toPos, hasMoved := true }).type
        = PieceType.queen := by
  have hpromo : isPromotionSquare { pc with position := toPos, hasMoved := true } = true := by
    simp only [isPromotionSquare, hty]
    simp only [Bool.and_eq_true, decide_eq_true_eq]
    refine ⟨trivial, ?_⟩
    rw [hrank]
    rfl
  refine ⟨?_, ?_, ?_⟩
  · intro hmode hcolor
    have hred : executeMove g pc toPos
        = endTurn { g with board := (setTypeAt
            (moveBoard (removeAtPos g.board toPos).1 pc.position toPos)
            toPos PieceType.queen) } := by
      unfold executeMove
      dsimp only
      rw [if_pos (by simp [hty, hrank]), if_pos (by simp [hmode, hcolor])]
      rfl
    rw [hred, endTurn_awaiting, endTurn_board, endTurn_currentTurn]
    refine ⟨haw, ?_, rfl⟩
    have hlook := getPieceAt_after_move (fun p => { p with type := PieceType.queen })
      (fun _ => rfl) g.board pc toPos hmem hnd hne
    simpa [setTypeAt] using hlook
  · intro hmode
    have hred : executeMove g pc toPos
        = { g with
            board := moveBoard (removeAtPos g.board toPos).1 pc.position toPos,
            awaitingPromotion := some toPos } := by
      unfold executeMove
      dsimp only
      rw [hmode]
      rw [if_pos (by simp [hty, hrank]), if_neg (by simp), if_neg (by simp)]
      rfl
    have hlook1 := getPieceAt_moveBoard g.board pc toPos hmem hnd hne
    refine ⟨by rw [hred], ?_, by rw [hred], ?_⟩
    · rw [hred]
      rw [hlook1, ← hty]
    · intro ty
      have hred2 : completePromotion (executeMove g pc toPos) ty
          = endTurn
              { g with
                board := setTypeAt
                  (moveBoard (removeAtPos g.board toPos).1 pc.position toPos) toPos ty,
                awaitingPromotion := none } := by
        rw [hred]
        rfl
      rw [hred2, endTurn_awaiting, endTurn_board, endTurn_currentTurn]
      refine ⟨rfl, ?_, rfl⟩
      have hlook := getPieceAt_after_move (fun p => { p with type := ty })
        (fun _ => rfl) g.board pc toPos hmem hnd hne
      simpa [setTypeAt] using hlook
  · simp [autoPromoteToQueen, hpromo]


/-- Witness for C8: a concrete bot promotion (immediate Queen, turn ends)
and a concrete human promotion (suspended, resumed by completePromotion). -/
theorem promotion_behaviour_witness :
    ((executeMove botPromoState botPromoPawn ⟨0, 0, 0⟩).awaitingPromotion = none
      ∧ getPieceAt (executeMove botPromoState botPromoPawn ⟨0, 0, 0⟩).board ⟨0, 0, 0⟩
          = some ⟨PieceType.queen, botPromoPawn.color, ⟨0, 0, 0⟩, true⟩
      ∧ (executeMove botPromoState botPromoPawn ⟨0, 0, 0⟩).currentTurn
          = getOpponent botPromoState.currentTurn)
    ∧ (executeMove humanPromoState humanPromoPawn ⟨3, 7, 2⟩).awaitingPromotion = some ⟨3, 7, 2⟩
    ∧ (completePromotion (executeMove humanPromoState humanPromoPawn ⟨3, 7, 2⟩)
        PieceType.knight).currentTurn = getOpponent humanPromoState.currentTurn :=
  ⟨(promotion_behaviour botPromoState botPromoPawn ⟨0, 0, 0⟩
      (by decide) (by decide) rfl (by decide) (by decide) rfl).1 rfl rfl,
   ((promotion_behaviour humanPromoState humanPromoPawn ⟨3, 7, 2⟩
      (by decide) (by decide) rfl (by decide) (by decide) rfl).2.1 rfl).1,
   (((promotion_behaviour humanPromoState humanPromoPawn ⟨3, 7, 2⟩
      (by decide) (by decide) rfl (by decide) (by decide) rfl).2.1 rfl).2.2.2
      PieceType.knight).2.2⟩

/-- C7: under the facts established by the per-depth search code — a
completed depth always carries a nonempty scored list (searchAtDepth raises
SearchAborted rather than returning an empty one), the `Bot has no legal
moves` error is raised exactly when the side to move has no legal move, and
the emergency depth-1 search completes under its relaxed budget — the
iterative-deepening loop returns a move whenever a legal move exists, for
every pattern of cooperative aborts, and reports the distinct
`Bot has no legal moves` error (never the abort) when no legal move
exists. -/
theorem search_always_produces_move
    (maxDepth : Nat) (atDepth : Nat → DepthOutcome) (emergency : DepthOutcome)
    (hasLegal : Bool)
    (hmax : 1 ≤ maxDepth)
    (hcompleted : ∀ d r, atDepth d = .completed r → r ≠ [])
    (hemc : ∀ r, emergency = .completed r → r ≠ [])
    (hlegal : hasLegal = true →
      (∀ d, atDepth d ≠ .noLegalMoves) ∧ emergency ≠ .noLegalMoves ∧ emergency ≠ .aborted)
    (hnolegal : hasLegal = false → ∀ d, atDepth d = .noLegalMoves) :
    (hasLegal = true → ∃ r, iterativeSearchSkeleton maxDepth atDepth emergency
        = Except.ok r ∧ r ≠ [])
    ∧ (hasLegal = false → iterativeSearchSkeleton maxDepth atDepth emergency
        = Except.error SearchFailure.noLegalMovesError) := by
  constructor
  · intro ht
    obtain ⟨hnl, hemnl, hemab⟩ := hlegal ht
    have key : ∀ (ds : List Nat) (best : Option (List RootChoice)),
        ds ≠ [] → (∀ r, best = some r → r ≠ []) →
        ∃ r, deepeningGo atDepth emergency ds best = .ok (some r) ∧ r ≠ [] := by
      intro ds
      induction ds with
      | nil => exact fun best h _ => absurd rfl h
      | cons d rest ih =>
        intro best _ hbest
        cases hout : atDepth d with
        | completed r =>
          have hr : r ≠ [] := hcompleted d r hout
          by_cases hrest : rest = []
          · subst hrest
            exact ⟨r, by simp [deepeningGo, hout], hr⟩
          · obtain ⟨rq, h1, h2⟩ := ih (some r) hrest
              (fun s hs => by rw [← Option.some_inj.mp hs]; exact hr)
            exact ⟨rq, by simp [deepeningGo, hout, h1], h2⟩
        | aborted =>
          cases best with
          | some r => exact ⟨r, by simp [deepeningGo, hout], hbest r rfl⟩
          | none =>
            cases hem : emergency with
            | completed r =>
              exact ⟨r, by simp [deepeningGo, hout, hem], hemc r hem⟩
            | aborted => exact absurd hem hemab
            | noLegalMoves => exact absurd hem hemnl
        | noLegalMoves => exact absurd hout (hnl d)
    have hne : List.range' 1 maxDepth ≠ [] := by
      cases maxDepth with
      | zero => omega
      | succ n => simp [List.range']
    obtain ⟨r, h1, h2⟩ := key (List.range' 1 maxDepth) none hne (by simp)
    refine ⟨r, ?_, h2⟩
    simp [iterativeSearchSkeleton, h1, h2]
  · intro hf
    have h1 := hnolegal hf 1
    have hsplit : ∃ rest, List.range' 1 maxDepth = 1 :: rest := by
      cases maxDepth with
      | zero => omega
      | succ n => exact ⟨List.range' 2 n, by simp [List.range']⟩
    obtain ⟨rest, hr⟩ := hsplit
    simp [iterativeSearchSkeleton, hr, deepeningGo, h1]

/-- Witness for C7: with every depth aborting, the emergency depth-1 result
is returned; with no legal moves, the distinct error is reported. -/
theorem search_always_produces_move_witness :
    (∃ r, iterativeSearchSkeleton 11 (fun _ => DepthOutcome.aborted)
        (DepthOutcome.completed [c7Choice]) = Except.ok r ∧ r ≠ [])
    ∧ iterativeSearchSkeleton 11 (fun _ => DepthOutcome.noLegalMoves)
        (DepthOutcome.completed [c7Choice])
      = Except.error SearchFailure.noLegalMovesError :=
  ⟨(search_always_produces_move 11 (fun _ => .aborted) (.completed [c7Choice]) true
      (by decide) (fun _ r h => (nomatch h))
      (fun r h => by rw [← (DepthOutcome.completed.injEq _ _).mp h]; decide)
      (fun _ => ⟨fun _ h => (nomatch h), ⟨fun h => (nomatch h), fun h => (nomatch h)⟩⟩)
      (fun h => (nomatch h))).1 rfl,
   (search_always_produces_move 11 (fun _ => .noLegalMoves) (.completed [c7Choice]) false
      (by decide) (fun _ r h => (nomatch h))
      (fun r h => by rw [← (DepthOutcome.completed.injEq _ _).mp h]; decide)
      (fun h => (nomatch h))
      (fun _ _ => rfl)).2 rfl⟩

end Chess3
